import Mathlib

/-!
# Verification of the ek-transcript chunking / speaker-consolidation core

Shallow embedding of the pure computational core of the repository:

* `split_audio_to_chunks` — the chunk planner of
  `src/lambdas/chunk_audio/lambda_function.py` (`split_audio_to_chunks`),
  with the ffmpeg extraction side effects elided (they do not influence the
  returned chunk records) and the `MIN_CHUNK_DURATION` module constant made
  an explicit argument.  Seconds are modelled as rationals.
* `extract_speaker_embeddings` — the duration-weighted embedding
  extraction of `src/lambdas/diarize/lambda_function.py`, with the
  pyannote embedding model abstracted as an oracle
  `Seg → Option (List ℚ)` (`none` models an extraction failure, a `None`
  result or an empty result, all of which the code skips).
* `aggregate_results` — the pure core of the handler in
  `src/lambdas/aggregate_results/lambda_function.py` (sort the
  transcription results by their `start` field, report the segment count).
* `consolidate` — the Speaker Consolidator, which is described in the
  specification (§4.3) but absent from the repository sources; it is
  modelled from the specification's words.
-/

/-! ## Chunk planner (`src/lambdas/chunk_audio/lambda_function.py`) -/

/-- One chunk record as built by `split_audio_to_chunks`
(`chunk_index`, `offset`, `duration`, `effective_start`, `effective_end`;
the `local_path` string field is elided as it carries no geometry). -/
structure AudioChunk where
  chunk_index : ℕ
  offset : ℚ
  duration : ℚ
  effective_start : ℚ
  effective_end : ℚ
deriving DecidableEq, Repr

/-- `chunks[-1]["effective_end"] = total_duration`: replace the last
element's `effective_end`.  On the empty list this is the identity, which
mirrors the `if chunks:` guard in the source. -/
def setLastEffEnd : List AudioChunk → ℚ → List AudioChunk
  | [], _ => []
  | [c], t => [{ c with effective_end := t }]
  | c :: c' :: rest, t => c :: setLastEffEnd (c' :: rest) t

/-- The `while current_pos < total_duration` loop of
`split_audio_to_chunks`, as fuel-indexed recursion; the fuel only bounds
the number of iterations, and `split_audio_to_chunks` supplies enough of
it for every terminating run of the Python loop.  `acc` holds the chunks
emitted so far, in order.  Each iteration either merges the short tail
into the previous chunk and stops, or emits the chunk
`{index, offset := pos, duration := min (pos + chunkD + overlapD) total - pos,
effective_start := pos, effective_end := min (pos + chunkD) total}`
and advances `pos` by `step`. -/
def splitLoop (total chunkD overlapD minChunk step : ℚ) :
    ℕ → ℚ → ℕ → List AudioChunk → List AudioChunk
  | 0, _, _, acc => acc
  | fuel + 1, pos, idx, acc =>
    if pos < total then
      if total - pos < minChunk ∧ 0 < idx then
        setLastEffEnd acc total
      else
        let chunkEnd := min (pos + chunkD + overlapD) total
        let c : AudioChunk :=
          { chunk_index := idx
            offset := pos
            duration := chunkEnd - pos
            effective_start := pos
            effective_end := min (pos + chunkD) total }
        splitLoop total chunkD overlapD minChunk step fuel (pos + step) (idx + 1) (acc ++ [c])
    else acc

/-- `split_audio_to_chunks` of `src/lambdas/chunk_audio/lambda_function.py`:
`step = chunk_duration - overlap_duration`, start at position `0.0` with
chunk index `0` and no chunks emitted.  The fuel bounds the loop: when
`step > 0` the loop body runs at most `⌊total/step⌋ + 1` times, so
`⌊total/step⌋ + 2` calls suffice. -/
def split_audio_to_chunks (total chunkD overlapD minChunk : ℚ) : List AudioChunk :=
  let step := chunkD - overlapD
  let fuel := (if 0 < step then (⌊total / step⌋).toNat else 0) + 2
  splitLoop total chunkD overlapD minChunk step fuel 0 0 []

/-! ## Diarizer embedding extraction (`src/lambdas/diarize/lambda_function.py`) -/

/-- One diarization segment (`local_start`, `local_end`, `local_speaker`). -/
structure Seg where
  local_start : ℚ
  local_end : ℚ
  local_speaker : String
deriving DecidableEq, Repr

/-- The per-speaker record built by `extract_speaker_embeddings`
(`embedding`, `total_duration`, `segment_count`). -/
structure SpeakerEmbedding where
  embedding : List ℚ
  total_duration : ℚ
  segment_count : ℕ
deriving DecidableEq, Repr

/-- Python `dict` grouping: the speaker labels in order of first
appearance (`speaker_segments` keys' insertion order). -/
def speakerOrder (segs : List Seg) : List String :=
  segs.foldl (fun acc s => if s.local_speaker ∈ acc then acc else acc ++ [s.local_speaker]) []

/-- The inner per-turn loop of `extract_speaker_embeddings`: skip turns
shorter than `0.5` seconds, query the embedding model, and on success
record `(duration, vector)`.  A `none` from the oracle covers the three
skip paths of the source (an exception, a `None` result, an empty
result); all of them `continue` without recording anything. -/
def keptRows (extractOracle : Seg → Option (List ℚ)) (segs : List Seg) : List (ℚ × List ℚ) :=
  segs.filterMap (fun s =>
    let d := s.local_end - s.local_start
    if d < 1/2 then none
    else
      match extractOracle s with
      | some v => some (d, v)
      | none => none)

/-- Componentwise sum of a list of vectors (`np.array(embeddings)` summed
along axis 0; all rows of the numpy array have the same length). -/
def vsum : List (List ℚ) → List ℚ
  | [] => []
  | v :: vs => vs.foldl (List.zipWith (· + ·)) v

/-- `weights = np.array(durations); weights /= weights.sum();
np.average(embeddings_array, axis=0, weights=weights)`: normalize the
duration weights to sum to `1`, then `np.average` computes
`(Σ wᵢ·vᵢ) / (Σ wᵢ)` componentwise. -/
def weightedAverage (rows : List (ℚ × List ℚ)) : List ℚ :=
  let tot := (rows.map Prod.fst).sum
  let normed := rows.map (fun p => (p.1 / tot, p.2))
  let wsum := (normed.map Prod.fst).sum
  (vsum (normed.map (fun p => p.2.map (p.1 * ·)))).map (· / wsum)

/-- `extract_speaker_embeddings` of `src/lambdas/diarize/lambda_function.py`:
group the segments by `local_speaker`, keep per speaker the turns of
duration at least `0.5` s whose embedding extraction succeeds, and for
speakers with at least one kept turn record the duration-weighted average
embedding, the summed duration of the kept turns, and the count of all
the speaker's turns (`len(segs)`).  Speakers with no kept turn are
omitted.  The embedding model `embedding_model.crop` is the oracle
argument. -/
def extract_speaker_embeddings (extractOracle : Seg → Option (List ℚ)) (segs : List Seg) :
    List (String × SpeakerEmbedding) :=
  (speakerOrder segs).filterMap (fun sp =>
    let group := segs.filter (fun s => s.local_speaker = sp)
    let rows := keptRows extractOracle group
    if rows = [] then none
    else some (sp,
      { embedding := weightedAverage rows
        total_duration := (rows.map Prod.fst).sum
        segment_count := group.length }))

/-- Squared Euclidean distance between two vectors (used to state
"the representative vector lies closer to the 8s turn's vector"). -/
def sqDist (u v : List ℚ) : ℚ :=
  (List.zipWith (fun a b => (a - b) ^ 2) u v).sum

/-! ## Transcript aggregation (`src/lambdas/aggregate_results/lambda_function.py`) -/

/-- One transcription result record; the handler only reads its `start`
field (`sorted(transcription_results, key=lambda x: x["start"])`), the
rest of the record travels along unchanged and is modelled by `text`. -/
structure TranscriptionResult where
  start : ℚ
  text : String
deriving DecidableEq, Repr

/-- What the aggregation handler emits: the sorted transcript (the body
uploaded to S3) and the reported `segment_count`. -/
structure AggregateOutput where
  transcript : List TranscriptionResult
  segment_count : ℕ
deriving DecidableEq, Repr

/-- The pure core of `lambda_handler` in
`src/lambdas/aggregate_results/lambda_function.py`: sort the results by
their `start` field (Python's `sorted` is a stable comparison sort;
`insertionSort` is likewise stable) and report `segment_count` as the
length of the sorted list. -/
def aggregate_results (rs : List TranscriptionResult) : AggregateOutput :=
  let sortedResults := rs.insertionSort (fun a b => a.start ≤ b.start)
  { transcript := sortedResults, segment_count := sortedResults.length }

/-! ## Speaker Consolidator (spec §4.3; absent from `src/`) -/

/-- Dot product of two embedding vectors. -/
def dotp (u v : List ℚ) : ℚ := (List.zipWith (· * ·) u v).sum

/-- Squared Euclidean norm of an embedding vector. -/
def normSq (u : List ℚ) : ℚ := dotp u u

/-- Modelled from the spec: "compare its embedding against every existing
entry in the GlobalSpeakerRegistry using cosine similarity; if the best
match's similarity is at or above a similarity threshold, adopt that
existing global id".  `cosSimGe thr u v` states that the cosine
similarity of `u` and `v` is at least `thr`; for `0 ≤ thr` (and nonzero
vectors) `cos(u,v) = ⟨u,v⟩ / (‖u‖·‖v‖) ≥ thr` holds exactly when
`0 ≤ ⟨u,v⟩` and `thr² · ‖u‖² · ‖v‖² ≤ ⟨u,v⟩²`, which avoids square roots
and keeps the test decidable over ℚ. -/
def cosSimGe (thr : ℚ) (u v : List ℚ) : Prop :=
  0 ≤ dotp u v ∧ thr ^ 2 * (normSq u * normSq v) ≤ dotp u v ^ 2

instance (thr : ℚ) (u v : List ℚ) : Decidable (cosSimGe thr u v) := by
  unfold cosSimGe; infer_instance

/-- One entry of the GlobalSpeakerRegistry: a global speaker id and the
centroid embedding registered when that id was created. -/
structure RegEntry where
  gid : ℕ
  centroid : List ℚ
deriving DecidableEq, Repr

/-- Modelled from the spec: choice of the registry entry with the best
cosine similarity to `e`.  `simLt e b r` decides
`cos(e, b.centroid) < cos(e, r.centroid)` without square roots (the
common factor `‖e‖` cancels; signs are compared first). -/
def simLt (e : List ℚ) (b r : RegEntry) : Bool :=
  let db := dotp e b.centroid
  let dr := dotp e r.centroid
  if db < 0 ∧ 0 ≤ dr then true
  else if dr < 0 ∧ 0 ≤ db then false
  else if 0 ≤ db then decide (db ^ 2 * normSq r.centroid < dr ^ 2 * normSq b.centroid)
  else decide (dr ^ 2 * normSq b.centroid < db ^ 2 * normSq r.centroid)

/-- The registry entry most similar to `e` (first of the maxima, scanned
in registry order); `none` on an empty registry. -/
def bestEntry (e : List ℚ) (reg : List RegEntry) : Option RegEntry :=
  reg.foldl (fun best r =>
    match best with
    | none => some r
    | some b => if simLt e b r then some r else some b) none

/-- Consolidation state: the growing registry, the next fresh global id,
and the accumulated mapping `(chunk_index, local_speaker_label) ↦
global_speaker_id`. -/
structure ConsState where
  registry : List RegEntry
  nextId : ℕ
  mapping : List ((ℕ × String) × ℕ)
deriving DecidableEq, Repr

/-- Modelled from the spec (§4.3 step 2): the Speaker Consolidator is not
present under `src/` (the shown downstream aggregation only sorts by
timestamp), so its matching step is modelled from the specification's
words: compare the chunk-local speaker's embedding against every registry
entry by cosine similarity; adopt the best match's global id when its
similarity is at or above the threshold, otherwise create a new global id
and register this embedding as its centroid. -/
def assignSpeaker (thr : ℚ) (st : ConsState) (key : ℕ × String) (e : List ℚ) : ConsState :=
  match bestEntry e st.registry with
  | some b =>
    if cosSimGe thr e b.centroid then
      { st with mapping := st.mapping ++ [(key, b.gid)] }
    else
      { registry := st.registry ++ [⟨st.nextId, e⟩]
        nextId := st.nextId + 1
        mapping := st.mapping ++ [(key, st.nextId)] }
  | none =>
    { registry := st.registry ++ [⟨st.nextId, e⟩]
      nextId := st.nextId + 1
      mapping := st.mapping ++ [(key, st.nextId)] }

/-- Modelled from the spec: process one chunk's local speakers (with
their embeddings) in order against the running registry. -/
def consolidateChunk (thr : ℚ) (st : ConsState) (idx : ℕ)
    (speakers : List (String × List ℚ)) : ConsState :=
  speakers.foldl (fun s p => assignSpeaker thr s (idx, p.1) p.2) st

/-- Modelled from the spec: chunks are processed in chunk index order,
starting from an empty registry. -/
def consolidateFrom (thr : ℚ) (st : ConsState) (idx : ℕ) :
    List (List (String × List ℚ)) → ConsState
  | [] => st
  | c :: rest => consolidateFrom thr (consolidateChunk thr st idx c) (idx + 1) rest

/-- Modelled from the spec: the Speaker Consolidator's global-identity
resolution (spec §4.3), over the per-chunk `label ↦ embedding` data, in
chunk order.  Only the identity-matching half is modelled — the claim
under verification concerns the resolution of chunk-local labels to
global ids, not turn clipping. -/
def consolidate (thr : ℚ) (chunks : List (List (String × List ℚ))) : ConsState :=
  consolidateFrom thr ⟨[], 0, []⟩ 0 chunks

/-! ## Sanity checks (spec §8 examples, evaluated on the embedding) -/

example : split_audio_to_chunks 600 480 30 60 =
    [⟨0, 0, 510, 0, 480⟩, ⟨1, 450, 150, 450, 600⟩] := by
  norm_num [split_audio_to_chunks, splitLoop, setLastEffEnd]

example : (split_audio_to_chunks 2520 480 30 60).length = 6 ∧
    (split_audio_to_chunks 2520 480 30 60).getLast?.map AudioChunk.effective_end =
      some 2520 := by
  norm_num [split_audio_to_chunks, splitLoop, setLastEffEnd]

/-! ## Loop lemmas for the chunk planner -/

/-- When the loop guard `current_pos < total_duration` fails, the loop
returns the accumulated chunks unchanged, whatever fuel remains. -/
theorem splitLoop_exit (total chunkD overlapD minChunk step : ℚ) (fuel : ℕ) (pos : ℚ)
    (idx : ℕ) (acc : List AudioChunk) (h : ¬ pos < total) :
    splitLoop total chunkD overlapD minChunk step fuel pos idx acc = acc := by
  cases fuel <;> simp [splitLoop, h]

/-- The short-tail branch of the loop body: remaining duration below the
minimum and at least one chunk already emitted. -/
theorem splitLoop_merge (total chunkD overlapD minChunk step : ℚ) (fuel : ℕ) (pos : ℚ)
    (idx : ℕ) (acc : List AudioChunk) (h : pos < total) (hm : total - pos < minChunk)
    (hi : 0 < idx) :
    splitLoop total chunkD overlapD minChunk step (fuel + 1) pos idx acc =
      setLastEffEnd acc total := by
  simp [splitLoop, h, hm, hi]

/-- The emitting branch of the loop body. -/
theorem splitLoop_emit (total chunkD overlapD minChunk step : ℚ) (fuel : ℕ) (pos : ℚ)
    (idx : ℕ) (acc : List AudioChunk) (h : pos < total)
    (hnm : ¬ (total - pos < minChunk ∧ 0 < idx)) :
    splitLoop total chunkD overlapD minChunk step (fuel + 1) pos idx acc =
      splitLoop total chunkD overlapD minChunk step fuel (pos + step) (idx + 1)
        (acc ++ [{ chunk_index := idx, offset := pos,
                   duration := min (pos + chunkD + overlapD) total - pos,
                   effective_start := pos,
                   effective_end := min (pos + chunkD) total }]) := by
  simp [splitLoop, h, hnm]

/-- Patching the last element of a nonempty chunk list. -/
theorem setLastEffEnd_append (l : List AudioChunk) (c : AudioChunk) (t : ℚ) :
    setLastEffEnd (l ++ [c]) t = l ++ [{ c with effective_end := t }] := by
  induction l with
  | nil => simp [setLastEffEnd]
  | cons a l ih => cases l <;> simp_all [setLastEffEnd]

/-! ## Claim C1 -/

/-- C1: the claim states that consecutive chunks' effective windows are
contiguous (`effective_end(i) = effective_start(i+1)`).  The code sets
`effective_start` to the chunk's physical start position, so consecutive
effective windows overlap by `overlap_duration`: at
`total_duration = 600, chunk_duration = 480, overlap_duration = 30,
min_chunk_duration = 60` the planner returns chunk 0 with effective
window `[0, 480]` and chunk 1 with effective window `[450, 600]` —
`effective_end(0) = 480 ≠ 450 = effective_start(1)`.  This contradicts
the code's own docstring (chunk_1's effective span is documented as
`480〜960` for offset `450`). -/
theorem c1_effective_windows_not_contiguous :
    split_audio_to_chunks 600 480 30 60 =
      [⟨0, 0, 510, 0, 480⟩, ⟨1, 450, 150, 450, 600⟩] ∧
    ¬ List.Chain' (fun a b => a.effective_end = b.effective_start)
        (split_audio_to_chunks 600 480 30 60) := by
  have h : split_audio_to_chunks 600 480 30 60 =
      [⟨0, 0, 510, 0, 480⟩, ⟨1, 450, 150, 450, 600⟩] := by
    norm_num [split_audio_to_chunks, splitLoop, setLastEffEnd]
  refine ⟨h, ?_⟩
  rw [h]
  simp only [List.chain'_cons, List.chain'_singleton, and_true]
  norm_num

/-! ## Claim C3 -/

/-- C3 (amended): the planner performs no configuration validation and
never raises a `ConfigurationError`.  On a violated constraint that still
lets the loop terminate it returns a chunk list as usual: for
`total_duration ≤ 0` it returns the empty list, and for
`min_chunk_duration = -5 ≤ 0` (with `total_duration = 100`) it returns a
normal one-chunk list. -/
theorem c3_no_configuration_validation :
    (∀ total chunkD overlapD minChunk : ℚ, total ≤ 0 →
        split_audio_to_chunks total chunkD overlapD minChunk = []) ∧
    split_audio_to_chunks 100 480 30 (-5) = [⟨0, 0, 100, 0, 100⟩] := by
  constructor
  · intro t c o m ht
    unfold split_audio_to_chunks
    exact splitLoop_exit _ _ _ _ _ _ _ _ _ (not_lt.mpr ht)
  · norm_num [split_audio_to_chunks, splitLoop, setLastEffEnd]

/-- C3, witness for the amended claim: at `total_duration = 0` the
planner returns the empty chunk list. -/
theorem c3_no_configuration_validation_witness :
    (0:ℚ) ≤ 0 ∧ split_audio_to_chunks 0 480 30 60 = [] :=
  ⟨le_refl 0, c3_no_configuration_validation.1 0 480 30 60 (le_refl 0)⟩

/-- C3, counterexample to the claim as stated: `min_chunk_duration = -5`
violates `min_chunk_duration > 0`, yet the planner returns a (nonempty)
chunk list instead of failing with a `ConfigurationError` (no such error
class exists anywhere in the repository). -/
theorem c3_counterexample_no_error_on_invalid_config :
    ¬ ((0:ℚ) < -5) ∧ split_audio_to_chunks 100 480 30 (-5) ≠ [] := by
  constructor
  · norm_num
  · have h : split_audio_to_chunks 100 480 30 (-5) = [⟨0, 0, 100, 0, 100⟩] := by
      norm_num [split_audio_to_chunks, splitLoop, setLastEffEnd]
    rw [h]; simp

/-! ## Claim C4 -/

/-- C4: whenever the loop reaches a position with remaining duration
strictly below `min_chunk_duration` and at least one chunk already
emitted, no further chunk is emitted: the previously emitted chunk's
`effective_end` is set to the total duration and planning stops.  In
particular at `total_duration = 950, chunk_duration = 480,
overlap_duration = 30, min_chunk_duration = 60` exactly two chunks are
produced and the final chunk's `effective_end` is `950`. -/
theorem c4_short_tail_merge :
    (∀ (total chunkD overlapD minChunk step : ℚ) (fuel : ℕ) (pos : ℚ) (idx : ℕ)
        (front : List AudioChunk) (prev : AudioChunk),
        pos < total → total - pos < minChunk → 0 < idx →
        splitLoop total chunkD overlapD minChunk step (fuel + 1) pos idx (front ++ [prev]) =
          front ++ [{ prev with effective_end := total }]) ∧
    split_audio_to_chunks 950 480 30 60 =
      [⟨0, 0, 510, 0, 480⟩, ⟨1, 450, 500, 450, 950⟩] ∧
    (split_audio_to_chunks 950 480 30 60).length = 2 := by
  refine ⟨?_, ?_, ?_⟩
  · intro total chunkD overlapD minChunk step fuel pos idx front prev h hm hi
    rw [splitLoop_merge _ _ _ _ _ _ _ _ _ h hm hi, setLastEffEnd_append]
  · norm_num [split_audio_to_chunks, splitLoop, setLastEffEnd]
  · norm_num [split_audio_to_chunks, splitLoop, setLastEffEnd]

/-- C4, witness: the general short-tail rule applied at the concrete
state the planner reaches for `total_duration = 950` (position `900`,
remaining `50 < 60`, two chunks emitted). -/
theorem c4_short_tail_merge_witness :
    (900:ℚ) < 950 ∧ (950:ℚ) - 900 < 60 ∧ 0 < 2 ∧
    splitLoop 950 480 30 60 450 1 900 2
        ([⟨0, 0, 510, 0, 480⟩] ++ [⟨1, 450, 500, 450, 930⟩]) =
      [⟨0, 0, 510, 0, 480⟩] ++
        [{ (⟨1, 450, 500, 450, 930⟩ : AudioChunk) with effective_end := 950 }] :=
  ⟨by norm_num, by norm_num, by norm_num,
    c4_short_tail_merge.1 950 480 30 60 450 0 900 2
      [⟨0, 0, 510, 0, 480⟩] ⟨1, 450, 500, 450, 930⟩
      (by norm_num) (by norm_num) (by norm_num)⟩

/-! ## Claim C5 -/

/-- C5 (amended): for `0 < total_duration < chunk_duration +
overlap_duration`, under a valid configuration, the planner returns
exactly one chunk spanning the whole duration **provided the second loop
position falls in the short-tail region**, i.e. `total_duration <
chunk_duration - overlap_duration + min_chunk_duration` (which the
default configuration `480/30/60` guarantees for the whole range, since
`min_chunk_duration ≥ 2 · overlap_duration`).  Without that extra bound
the claim is false, see the counterexample. -/
theorem c5_single_chunk_amended (total chunkD overlapD minChunk : ℚ)
    (ho : 0 < overlapD) (hoc : overlapD < chunkD) (hm : 0 < minChunk)
    (ht : 0 < total) (hlt : total < chunkD + overlapD)
    (hmerge : total < chunkD - overlapD + minChunk) :
    split_audio_to_chunks total chunkD overlapD minChunk =
      [⟨0, 0, total, 0, total⟩] := by
  have hstep : 0 < chunkD - overlapD := by linarith
  unfold split_audio_to_chunks
  simp only [if_pos hstep]
  rw [show (⌊total / (chunkD - overlapD)⌋.toNat + 2) =
        (⌊total / (chunkD - overlapD)⌋.toNat + 1) + 1 from rfl]
  rw [splitLoop_emit _ _ _ _ _ _ _ _ _ ht (by simp)]
  simp only [zero_add, sub_zero, List.nil_append]
  rw [min_eq_right hlt.le]
  by_cases hcase : chunkD - overlapD < total
  · rw [splitLoop_merge _ _ _ _ _ _ _ _ _ hcase (by linarith) (by norm_num)]
    simp [setLastEffEnd]
  · rw [splitLoop_exit _ _ _ _ _ _ _ _ _ hcase]
    have : min chunkD total = total := min_eq_right (by linarith [not_lt.mp hcase])
    simp [this]

/-- C5, witness: a 460-second recording under the default configuration
yields the single chunk `[0, 460]` with effective window `[0, 460]`. -/
theorem c5_single_chunk_amended_witness :
    ((0:ℚ) < 30 ∧ (30:ℚ) < 480 ∧ (0:ℚ) < 60 ∧ (0:ℚ) < 460 ∧
      (460:ℚ) < 480 + 30 ∧ (460:ℚ) < 480 - 30 + 60) ∧
    split_audio_to_chunks 460 480 30 60 = [⟨0, 0, 460, 0, 460⟩] :=
  ⟨by norm_num,
    c5_single_chunk_amended 460 480 30 60 (by norm_num) (by norm_num) (by norm_num)
      (by norm_num) (by norm_num) (by norm_num)⟩

/-- C5, counterexample to the claim as stated: the configuration
`chunk_duration = 480, overlap_duration = 30, min_chunk_duration = 50`
is valid and `total_duration = 505 < 510 = chunk_duration +
overlap_duration`, yet the planner returns two chunks, not one (at
position 450 the remaining 55 seconds are not below the 50-second
minimum, so a second chunk is emitted). -/
theorem c5_counterexample_two_chunks :
    ((0:ℚ) < 30 ∧ (30:ℚ) < 480 ∧ (0:ℚ) < 50 ∧ (0:ℚ) < 505 ∧ (505:ℚ) < 480 + 30) ∧
    split_audio_to_chunks 505 480 30 50 =
      [⟨0, 0, 505, 0, 480⟩, ⟨1, 450, 55, 450, 505⟩] ∧
    (split_audio_to_chunks 505 480 30 50).length ≠ 1 := by
  refine ⟨by norm_num, ?_, ?_⟩ <;>
    norm_num [split_audio_to_chunks, splitLoop, setLastEffEnd]

/-! ## Claim C8 -/

/-- C8: the chunk-planning computation is deterministic and idempotent —
two calls with identical arguments return identical chunk lists (same
order, same fields).  The embedded planner is a pure function of its four
arguments, so equal inputs give equal outputs. -/
theorem c8_planner_deterministic (t c o m t' c' o' m' : ℚ)
    (h1 : t = t') (h2 : c = c') (h3 : o = o') (h4 : m = m') :
    split_audio_to_chunks t c o m = split_audio_to_chunks t' c' o' m' := by
  subst h1; subst h2; subst h3; subst h4; rfl

/-- C8, witness: two calls with the arguments of the spec's §8 example
agree. -/
theorem c8_planner_deterministic_witness :
    (600:ℚ) = 600 ∧
    split_audio_to_chunks 600 480 30 60 = split_audio_to_chunks 600 480 30 60 :=
  ⟨rfl, c8_planner_deterministic 600 480 30 60 600 480 30 60 rfl rfl rfl rfl⟩

/-! ## Claim C9 -/

/-- C9: the aggregation handler emits a permutation of its input sorted
in ascending order of the `start` field, and the reported `segment_count`
equals the length of the emitted list (hence also of the input). -/
theorem c9_aggregate_sorts_by_start (rs : List TranscriptionResult) :
    (aggregate_results rs).transcript.Perm rs ∧
    List.Pairwise (fun a b => a.start ≤ b.start) (aggregate_results rs).transcript ∧
    (aggregate_results rs).segment_count = (aggregate_results rs).transcript.length ∧
    (aggregate_results rs).segment_count = rs.length := by
  have hperm : (rs.insertionSort fun a b => a.start ≤ b.start).Perm rs :=
    List.perm_insertionSort _ rs
  refine ⟨hperm, ?_, rfl, ?_⟩
  · haveI h1 : IsTotal TranscriptionResult (fun a b => a.start ≤ b.start) :=
      ⟨fun a b => le_total a.start b.start⟩
    haveI h2 : IsTrans TranscriptionResult (fun a b => a.start ≤ b.start) :=
      ⟨fun _ _ _ hab hbc => le_trans hab hbc⟩
    exact List.sorted_insertionSort _ rs
  · simpa [aggregate_results] using hperm.length_eq

/-! ## Claim C2 -/

/-- C2 (spec-modelled): feeding the same physical speaker's embedding
into two chunks, the chunk-local labels resolve to the same global id
exactly when the cosine similarity is at or above the threshold: after
consolidating chunk 0 with speaker `l0` (embedding `e1`) and chunk 1 with
speaker `l1` (embedding `e2`), both labels map to global id 0 when
`cos(e2, e1) ≥ thr`, and `l1` receives the distinct fresh id 1 when
`cos(e2, e1) < thr`. -/
theorem c2_consolidator_matching (thr : ℚ) (l0 l1 : String) (e1 e2 : List ℚ)
    (ht : 0 ≤ thr) :
    (cosSimGe thr e2 e1 →
      (consolidate thr [[(l0, e1)], [(l1, e2)]]).mapping =
        [((0, l0), 0), ((1, l1), 0)]) ∧
    (¬ cosSimGe thr e2 e1 →
      (consolidate thr [[(l0, e1)], [(l1, e2)]]).mapping =
        [((0, l0), 0), ((1, l1), 1)]) := by
  constructor <;> intro h <;>
    simp [consolidate, consolidateFrom, consolidateChunk, assignSpeaker, bestEntry, h]

/-- C2, witness: with threshold `4/5`, the parallel embeddings `[3,4]`
(chunk 0) and `[6,8]` (chunk 1) have cosine similarity `1 ≥ 4/5`, and
both labels resolve to global speaker id 0. -/
theorem c2_consolidator_matching_witness :
    (0:ℚ) ≤ 4/5 ∧ cosSimGe (4/5) [6, 8] [3, 4] ∧
    (consolidate (4/5) [[("S0", [3, 4])], [("S1", [6, 8])]]).mapping =
      [((0, "S0"), 0), ((1, "S1"), 0)] := by
  have hsim : cosSimGe (4/5) [6, 8] [3, 4] := by
    constructor <;> norm_num [dotp, normSq]
  exact ⟨by norm_num, hsim,
    (c2_consolidator_matching (4/5) "S0" "S1" [3, 4] [6, 8] (by norm_num)).1 hsim⟩

/-! ## Lemmas on the diarizer embedding extraction -/

/-- Membership in the dict-insertion-order fold, generalized over the
accumulator. -/
theorem mem_speakerOrder_aux (segs : List Seg) (acc : List String) (sp : String) :
    (sp ∈ segs.foldl
        (fun a s => if s.local_speaker ∈ a then a else a ++ [s.local_speaker]) acc) ↔
      sp ∈ acc ∨ ∃ s ∈ segs, s.local_speaker = sp := by
  induction segs generalizing acc with
  | nil => simp
  | cons s segs ih =>
    simp only [List.foldl_cons, ih, List.exists_mem_cons_iff]
    by_cases h : s.local_speaker ∈ acc
    · have hcase : s.local_speaker = sp → sp ∈ acc := fun he => he ▸ h
      simp only [if_pos h]
      tauto
    · simp only [if_neg h, List.mem_append, List.mem_singleton]
      constructor
      · rintro (⟨ha | he⟩ | hx)
        · exact Or.inl ha
        · exact Or.inr (Or.inl he.symm)
        · exact Or.inr (Or.inr hx)
      · rintro (ha | he | hx)
        · exact Or.inl (Or.inl ha)
        · exact Or.inl (Or.inr he.symm)
        · exact Or.inr hx

/-- A speaker label occurs in the grouping order exactly when some
segment carries it. -/
theorem mem_speakerOrder (segs : List Seg) (sp : String) :
    sp ∈ speakerOrder segs ↔ ∃ s ∈ segs, s.local_speaker = sp := by
  simpa using mem_speakerOrder_aux segs [] sp

/-- A speaker's kept-turn list is nonempty exactly when some turn is at
least half a second long and its embedding extraction succeeds. -/
theorem keptRows_ne_nil_iff (extractOracle : Seg → Option (List ℚ)) (segs : List Seg) :
    keptRows extractOracle segs ≠ [] ↔
      ∃ s ∈ segs, 1/2 ≤ s.local_end - s.local_start ∧ (extractOracle s).isSome := by
  rw [keptRows, Ne, List.filterMap_eq_nil_iff]
  push_neg
  refine exists_congr fun s => and_congr_right fun _hs => ?_
  by_cases hd : s.local_end - s.local_start < 1/2
  · rw [if_pos hd]
    constructor
    · intro h
      exact (h rfl).elim
    · rintro ⟨hle, -⟩
      exact absurd hd (not_lt.mpr hle)
  · rw [if_neg hd]
    have hle : 1/2 ≤ s.local_end - s.local_start := not_lt.mp hd
    cases hex : extractOracle s with
    | none =>
      constructor
      · intro h
        exact (h rfl).elim
      · rintro ⟨-, hsome⟩
        simp at hsome
    | some v =>
      constructor
      · intro _h
        exact ⟨hle, by simp⟩
      · intro _h
        simp

/-- Characterization of membership in the result of
`extract_speaker_embeddings`: the label is one of the grouped labels, it
has a kept turn, and the record's fields are the weighted average, the
kept-turn duration sum and the full group size. -/
theorem mem_extract_iff (extractOracle : Seg → Option (List ℚ)) (segs : List Seg)
    (sp : String) (emb : SpeakerEmbedding) :
    (sp, emb) ∈ extract_speaker_embeddings extractOracle segs ↔
      sp ∈ speakerOrder segs ∧
      keptRows extractOracle (segs.filter (fun s => s.local_speaker = sp)) ≠ [] ∧
      emb = { embedding :=
                weightedAverage
                  (keptRows extractOracle (segs.filter (fun s => s.local_speaker = sp)))
              total_duration :=
                ((keptRows extractOracle
                    (segs.filter (fun s => s.local_speaker = sp))).map Prod.fst).sum
              segment_count := (segs.filter (fun s => s.local_speaker = sp)).length } := by
  simp only [extract_speaker_embeddings, List.mem_filterMap]
  constructor
  · rintro ⟨sp', hsp', hf⟩
    by_cases h : keptRows extractOracle (segs.filter fun s => s.local_speaker = sp') = []
    · rw [if_pos h] at hf
      exact absurd hf (by simp)
    · rw [if_neg h] at hf
      rw [Option.some_inj, Prod.mk.injEq] at hf
      obtain ⟨rfl, rfl⟩ := hf
      exact ⟨hsp', h, rfl⟩
  · rintro ⟨hsp, hne, rfl⟩
    exact ⟨sp, hsp, by rw [if_neg hne]⟩

/-- Unfolding for the squared distance of two cons cells. -/
theorem sqDist_cons (a b : ℚ) (u v : List ℚ) :
    sqDist (a :: u) (b :: v) = (a - b) ^ 2 + sqDist u v := rfl

/-- Squared distances are nonnegative. -/
theorem sqDist_nonneg (u v : List ℚ) : 0 ≤ sqDist u v := by
  induction u generalizing v with
  | nil => simp [sqDist]
  | cons a u ih =>
    cases v with
    | nil => simp [sqDist]
    | cons b v =>
      rw [sqDist_cons]
      have h1 := ih v
      have h2 := sq_nonneg (a - b)
      linarith

/-- Two distinct vectors of the same length are a positive squared
distance apart. -/
theorem sqDist_pos (u v : List ℚ) (hlen : u.length = v.length) (hne : u ≠ v) :
    0 < sqDist u v := by
  induction u generalizing v with
  | nil =>
    cases v with
    | nil => exact absurd rfl hne
    | cons b v => simp at hlen
  | cons a u ih =>
    cases v with
    | nil => simp at hlen
    | cons b v =>
      rw [sqDist_cons]
      by_cases hab : a = b
      · subst hab
        have hne' : u ≠ v := fun h => hne (by rw [h])
        have h1 := ih v (by simpa using hlen) hne'
        have h2 := sq_nonneg (a - a)
        linarith
      · have h1 : 0 < (a - b) ^ 2 := pow_two_pos_of_ne_zero (sub_ne_zero.mpr hab)
        have h2 := sqDist_nonneg u v
        linarith

/-- Squared distances from the `1/5 · u + 4/5 · v` mix to each endpoint. -/
theorem sqDist_mix (u v : List ℚ) :
    sqDist (List.zipWith (fun a b => (1/5) * a + (4/5) * b) u v) v =
      (1/25) * sqDist u v ∧
    sqDist (List.zipWith (fun a b => (1/5) * a + (4/5) * b) u v) u =
      (16/25) * sqDist u v := by
  induction u generalizing v with
  | nil => simp [sqDist]
  | cons a u ih =>
    cases v with
    | nil => simp [sqDist]
    | cons b v =>
      obtain ⟨ih1, ih2⟩ := ih v
      rw [List.zipWith_cons_cons, sqDist_cons, sqDist_cons, sqDist_cons, ih1, ih2]
      constructor <;> ring

/-! ## Claim C7 -/

/-- C7: a chunk-local speaker label appears in the mapping returned by
`extract_speaker_embeddings` if and only if at least one of its turns is
at least 0.5 seconds long and that turn's embedding extraction succeeds;
short turns are excluded, failed extractions are skipped without aborting
the chunk, and a speaker with no usable turn is omitted rather than an
error. -/
theorem c7_embedding_presence_iff (extractOracle : Seg → Option (List ℚ))
    (segs : List Seg) (sp : String) :
    (sp ∈ (extract_speaker_embeddings extractOracle segs).map Prod.fst) ↔
      ∃ s ∈ segs, s.local_speaker = sp ∧
        1/2 ≤ s.local_end - s.local_start ∧ (extractOracle s).isSome := by
  rw [List.mem_map]
  constructor
  · rintro ⟨⟨sp', emb⟩, hmem, heq⟩
    obtain rfl : sp' = sp := heq
    rw [mem_extract_iff] at hmem
    obtain ⟨_hso, hne, -⟩ := hmem
    rw [keptRows_ne_nil_iff] at hne
    obtain ⟨s, hsmem, hd, hex⟩ := hne
    rw [List.mem_filter] at hsmem
    refine ⟨s, hsmem.1, ?_, hd, hex⟩
    simpa using hsmem.2
  · rintro ⟨s, hs, hsp, hd, hex⟩
    refine ⟨(sp,
      { embedding := weightedAverage
          (keptRows extractOracle (segs.filter (fun s => s.local_speaker = sp)))
        total_duration := ((keptRows extractOracle
            (segs.filter (fun s => s.local_speaker = sp))).map Prod.fst).sum
        segment_count := (segs.filter (fun s => s.local_speaker = sp)).length }),
      ?_, rfl⟩
    rw [mem_extract_iff]
    refine ⟨?_, ?_, rfl⟩
    · rw [mem_speakerOrder]
      exact ⟨s, hs, hsp⟩
    · rw [keptRows_ne_nil_iff]
      exact ⟨s, List.mem_filter.mpr ⟨hs, by simp [hsp]⟩, hd, hex⟩

/-! ## Claim C6 -/

/-- C6: `extract_speaker_embeddings` combines a speaker's kept turns by a
duration-weighted average — for two kept turns of durations 2s and 8s
with vectors `u` and `v`, the representative vector is the componentwise
mean `1/5 · u + 4/5 · v` (weights `2/10` and `8/10` summing to 1), and it
lies strictly closer (in squared Euclidean distance) to the 8-second
turn's vector than to the 2-second turn's vector whenever the two vectors
are distinct. -/
theorem c6_weighted_embedding_closer (sp : String) (s1 s2 : Seg)
    (extractOracle : Seg → Option (List ℚ)) (u v : List ℚ)
    (h1 : s1.local_speaker = sp) (h2 : s2.local_speaker = sp)
    (hd1 : s1.local_end - s1.local_start = 2) (hd2 : s2.local_end - s2.local_start = 8)
    (hu : extractOracle s1 = some u) (hv : extractOracle s2 = some v)
    (hlen : u.length = v.length) (hne : u ≠ v) :
    ∃ emb : SpeakerEmbedding,
      extract_speaker_embeddings extractOracle [s1, s2] = [(sp, emb)] ∧
      emb.embedding = List.zipWith (fun a b => (1/5) * a + (4/5) * b) u v ∧
      sqDist emb.embedding v < sqDist emb.embedding u := by
  have hgroup : [s1, s2].filter (fun s => s.local_speaker = sp) = [s1, s2] := by
    simp [List.filter, h1, h2]
  have hrows : keptRows extractOracle [s1, s2] = [(2, u), (8, v)] := by
    norm_num [keptRows, List.filterMap_cons, hd1, hd2, hu, hv]
  have horder : speakerOrder [s1, s2] = [sp] := by
    simp [speakerOrder, h1, h2]
  have hwavg : weightedAverage [(2, u), (8, v)] =
      List.zipWith (fun a b => (1/5) * a + (4/5) * b) u v := by
    norm_num [weightedAverage, vsum, List.zipWith_map]
  have hext : extract_speaker_embeddings extractOracle [s1, s2] =
      [(sp, { embedding := List.zipWith (fun a b => (1/5) * a + (4/5) * b) u v
              total_duration := 10
              segment_count := 2 })] := by
    rw [extract_speaker_embeddings, horder]
    simp only [List.filterMap_cons, List.filterMap_nil, hgroup, hrows, hwavg]
    rw [if_neg (List.cons_ne_nil _ _)]
    norm_num
  refine ⟨_, hext, rfl, ?_⟩
  rw [(sqDist_mix u v).1, (sqDist_mix u v).2]
  have hpos := sqDist_pos u v hlen hne
  linarith

/-- C6, witness: two turns of durations 2 and 8 carrying the distinct
one-dimensional vectors `[0]` and `[10]` produce the representative
vector `[8]`, which is closer to `[10]` than to `[0]`. -/
theorem c6_weighted_embedding_closer_witness :
    ∃ emb : SpeakerEmbedding,
      extract_speaker_embeddings
          (fun s => if s.local_end = 2 then some [0] else some [10])
          [⟨0, 2, "A"⟩, ⟨2, 10, "A"⟩] = [("A", emb)] ∧
      emb.embedding = List.zipWith (fun a b => (1/5) * a + (4/5) * b) [0] [10] ∧
      sqDist emb.embedding [10] < sqDist emb.embedding [0] :=
  c6_weighted_embedding_closer ("A") ⟨0, 2, "A"⟩ ⟨2, 10, "A"⟩
    (fun s => if s.local_end = 2 then some [0] else some [10]) [0] [10]
    rfl rfl (by norm_num) (by norm_num) (by norm_num) (by norm_num) rfl (by simp)

/-! ## Claim C10 -/

/-- C10: in every returned `SpeakerEmbedding`, `segment_count` counts all
the turns grouped under the speaker's label (including short and failed
ones) while `total_duration` sums only the kept turns' durations; for the
concrete input with one 0.3-second turn and one 1-second turn of speaker
"A", the record has `segment_count = 2` but only one contributing turn,
and `total_duration = 1`, smaller than the `13/10` sum of all this
speaker's turn durations. -/
theorem c10_segment_count_counts_all_turns :
    (∀ (extractOracle : Seg → Option (List ℚ)) (segs : List Seg) (sp : String)
        (emb : SpeakerEmbedding),
        (sp, emb) ∈ extract_speaker_embeddings extractOracle segs →
        emb.segment_count = (segs.filter (fun s => s.local_speaker = sp)).length ∧
        emb.total_duration =
          ((keptRows extractOracle (segs.filter (fun s => s.local_speaker = sp))).map
              Prod.fst).sum) ∧
    extract_speaker_embeddings (fun _ => some [1]) [⟨0, 3/10, "A"⟩, ⟨1, 2, "A"⟩] =
      [("A", ⟨[1], 1, 2⟩)] ∧
    (keptRows (fun _ => some [1]) [⟨0, 3/10, "A"⟩, ⟨1, 2, "A"⟩]).length = 1 ∧
    (1:ℕ) < 2 ∧ (1:ℚ) < 3/10 + (2 - 1) := by
  refine ⟨?_, ?_, ?_, by norm_num, by norm_num⟩
  · intro extractOracle segs sp emb hmem
    rw [mem_extract_iff] at hmem
    obtain ⟨-, -, rfl⟩ := hmem
    exact ⟨rfl, rfl⟩
  · norm_num [extract_speaker_embeddings, speakerOrder, keptRows, weightedAverage,
      vsum, List.filter, List.filterMap]
  · norm_num [keptRows, List.filterMap]

/-- C10, witness: the general field characterization applied to the
record returned for speaker "A" on the concrete two-turn input. -/
theorem c10_segment_count_counts_all_turns_witness :
    (⟨[1], 1, 2⟩ : SpeakerEmbedding).segment_count =
      (([⟨0, 3/10, "A"⟩, ⟨1, 2, "A"⟩] : List Seg).filter
          (fun s => s.local_speaker = "A")).length ∧
    (⟨[1], 1, 2⟩ : SpeakerEmbedding).total_duration =
      ((keptRows (fun _ => some [1])
          (([⟨0, 3/10, "A"⟩, ⟨1, 2, "A"⟩] : List Seg).filter
              (fun s => s.local_speaker = "A"))).map Prod.fst).sum :=
  c10_segment_count_counts_all_turns.1 (fun _ => some [1])
    [⟨0, 3/10, "A"⟩, ⟨1, 2, "A"⟩] "A" ⟨[1], 1, 2⟩
    (by rw [c10_segment_count_counts_all_turns.2.1]; exact List.mem_singleton.mpr rfl)
